import Mathlib

/-!
Verification of the fuzzy-ls repository against its natural-language
specification.  The Rust sources (src/search.rs, src/main.rs, src/gui.rs,
src/editor.rs) are shallowly embedded below.

Modelling conventions:
* a Rust `String` is a `List Char` (the sequence of Unicode scalar values that
  `str::chars()` iterates); `utf8Len` recovers the UTF-8 byte count that
  Rust's `str::len()` returns;
* `u32`/`usize` values are `Nat` (the distances, thresholds and indices that
  arise are tiny compared to the machine bounds, so wrap-around never occurs
  for inputs of realistic size and is not modelled);
* fallible Rust code returning `Result` is embedded with `Except`/`Option`,
  and a Rust panic (out-of-bounds index, `expect`) is a distinguished value;
* the interactive terminal loop of src/gui.rs is embedded as a state machine
  consuming an explicit list of per-iteration inputs (draw/flush results and
  the key event read), emitting the terminal-mode actions it performs.
-/

namespace FuzzyLs

/-- UTF-8 byte count of a string, i.e. what Rust's `str::len()` returns on the
string whose scalar values are `s`. -/
def utf8Len (s : List Char) : Nat := (s.map Char.utf8Size).sum

/-- DP table entry of `damerau_levenshtein_distance` (src/search.rs lines
95-118).  `dlF q f fuel i j` is the source's `dp[i][j]`.  The source indexes
the table by `0..=n` where `n = query.len()` is the BYTE length, but reads
characters with `query.chars().nth(i-1)`, an `Option<char>` compared with
`==` — so two out-of-range lookups (`None == None`) count as a match; the
embedding reproduces that with `q[i]?` lookups (`Option Char`).  The first
explicit `fuel` argument only makes the recursion structural: every call site
passes `fuel ≥ i + j` and each recursive call decreases `fuel` by one while
`i + j` decreases by at least one, so the fuel-exhausted third equation is
never reached (`dlF_fuel_irrel` below makes this precise). -/
def dlF (q f : List Char) : Nat → Nat → Nat → Nat
  | _, 0, j => j
  | _, i, 0 => i
  | 0, _ + 1, _ + 1 => 0
  | fuel + 1, i + 1, j + 1 =>
    let viaEdit :=
      if q[i]? = f[j]? then dlF q f fuel i j
      else 1 + min (dlF q f fuel i (j + 1)) (min (dlF q f fuel (i + 1) j) (dlF q f fuel i j))
    if 0 < i ∧ 0 < j ∧ q[i]? = f[j - 1]? ∧ q[i - 1]? = f[j]? then
      min viaEdit (dlF q f fuel (i - 1) (j - 1) + 1)
    else viaEdit

/-- src/search.rs lines 91-120: `damerau_levenshtein_distance(query, file_name)`.
The result is `dp[n][m]` with `n`, `m` the BYTE lengths of the two strings. -/
def damerau_levenshtein_distance (query file_name : List Char) : Nat :=
  dlF query file_name (utf8Len query + utf8Len file_name) (utf8Len query) (utf8Len file_name)

/-- Written from the spec's words (§4.1), for comparison with the source
function: the same dynamic-programming recurrence, but with the table sized by
the CHARACTER counts (`len(query)` "counted in characters"), as the spec
states.  On such in-range indices every `q[i]?` lookup is `some`, so this is
the standard character-level Damerau–Levenshtein distance. -/
def dlSpecChars (query file_name : List Char) : Nat :=
  dlF query file_name (query.length + file_name.length) query.length file_name.length

/-- src/search.rs lines 4-10. -/
inductive FuzzySearchAlgorithm
  | LEVENSHTEIN
  | DamerauLevenshtein
  | BITAP
  | JaroWinkler
deriving DecidableEq

/-- Rust's `{:?}` rendering of a `FuzzySearchAlgorithm` variant, used in the
error message of `score_fuzzy_search`. -/
def fuzzyAlgorithmDebugName : FuzzySearchAlgorithm → String
  | .LEVENSHTEIN => "LEVENSHTEIN"
  | .DamerauLevenshtein => "DamerauLevenshtein"
  | .BITAP => "BITAP"
  | .JaroWinkler => "JaroWinkler"

/-- src/search.rs lines 68-79: `score_fuzzy_search(query, file_name, scorer)`. -/
def score_fuzzy_search (query file_name : List Char) (scorer : FuzzySearchAlgorithm) :
    Except String Nat :=
  match scorer with
  | .DamerauLevenshtein => .ok (damerau_levenshtein_distance query file_name)
  | _ => .error (fuzzyAlgorithmDebugName scorer ++ " Algorithm not implemented")

/-- A scored candidate as main.rs builds it: `(score, file_name, full_path)`. -/
abbrev Hit := Nat × List Char × List Char

/-- src/main.rs lines 202-211: score every `(file_name, full_path)` pair in
order; the first scoring error aborts the walk and is returned to the caller
(`Err(error) => return Err(error.into())`). -/
def scoreAllFiles (query : List Char) (scorer : FuzzySearchAlgorithm) :
    List (List Char × List Char) → Except String (List Hit)
  | [] => .ok []
  | (file_name, full_path) :: rest =>
    match score_fuzzy_search query file_name scorer with
    | .ok score =>
      match scoreAllFiles query scorer rest with
      | .ok hits => .ok ((score, file_name, full_path) :: hits)
      | .error e => .error e
    | .error e => .error e

/-- The scored list in input order (what the loop of src/main.rs lines 202-211
produces when no candidate fails, i.e. with the `DamerauLevenshtein` scorer). -/
def scoredList (query : List Char) (files : List (List Char × List Char)) : List Hit :=
  files.map (fun nf => (damerau_levenshtein_distance query nf.1, nf.1, nf.2))

/-- src/main.rs line 212: `ranked_files.sort_by(|a, b| a.0.cmp(&b.0))` — a
stable sort ascending by score.  A stable sort by a fixed key is unique, so
any stable sorting algorithm is a faithful model; we use straight insertion,
`insertHit` keeping a new element before every existing element whose score is
not strictly smaller (equal scores keep their input order). -/
def insertHit (x : Hit) : List Hit → List Hit
  | [] => [x]
  | y :: ys => if y.1 < x.1 then y :: insertHit x ys else x :: y :: ys

/-- The stable sort of the scored list (see `insertHit`). -/
def sortHits : List Hit → List Hit
  | [] => []
  | x :: xs => insertHit x (sortHits xs)

/-- src/main.rs lines 213-217: the adaptive threshold computed from
`args.query.len()` — the BYTE length of the query.  The source computes
`(len as f32 * c).ceil() as u32` with `c` one of 0.25, 0.35, 0.45; the exact
ceilings below, `⌈len/4⌉ = (len+3)/4`, `⌈7·len/20⌉ = (7·len+19)/20` and
`⌈9·len/20⌉ = (9·len+19)/20`, agree with the f32 computation: the nearest-f32
roundings of 0.35 and 0.45 sit within 2⁻²⁴ of the exact constants while the
exact products are never closer than 1/20 to a different integer for any
length under several hundred thousand bytes, and 0.25 and the small integer
products are exact in f32. -/
def threshold (len : Nat) : Nat :=
  if len ≤ 4 then (len + 3) / 4
  else if len ≤ 10 then (7 * len + 19) / 20
  else (9 * len + 19) / 20

/-- The threshold main.rs derives from the query (src/main.rs line 213 matches
on `args.query.len()`, the UTF-8 byte count). -/
def thresholdOfQuery (query : List Char) : Nat := threshold (utf8Len query)

/-- Written from the spec's words (§4.1 step 3), for comparison with the
source: the same piecewise ceiling formula applied to the CHARACTER count of
the query ("Compute an adaptive integer threshold from `len(query)`
(character count)"), with the ceilings taken exactly over ℚ. -/
def mathCeilThreshold (len : Nat) : Nat :=
  if len ≤ 4 then ⌈(len : ℚ) * (25 / 100)⌉₊
  else if len ≤ 10 then ⌈(len : ℚ) * (35 / 100)⌉₊
  else ⌈(len : ℚ) * (45 / 100)⌉₊

/-- Spec-words threshold over the character count (see `mathCeilThreshold`). -/
def thresholdSpecChars (query : List Char) : Nat := mathCeilThreshold query.length

/-- src/main.rs lines 218-224: walk the sorted list, push every candidate
whose score is at most the threshold, `break` at the first one exceeding it. -/
def selectHits (thr : Nat) : List Hit → List Hit
  | [] => []
  | h :: t => if h.1 ≤ thr then h :: selectHits thr t else []

/-- The fuzzy-mode `potential_hits` list of src/main.rs lines 200-224, with
the scoring loop's error propagation kept explicit. -/
def fuzzyMode (query : List Char) (files : List (List Char × List Char)) :
    Except String (List Hit) :=
  match scoreAllFiles query .DamerauLevenshtein files with
  | .error e => .error e
  | .ok ranked => .ok (selectHits (thresholdOfQuery query) (sortHits ranked))

/-- The fuzzy-mode result list written directly (equal to the `.ok` payload of
`fuzzyMode`, since the Damerau–Levenshtein scorer never fails). -/
def fuzzyHits (query : List Char) (files : List (List Char × List Char)) : List Hit :=
  selectHits (thresholdOfQuery query) (sortHits (scoredList query files))

/-! ### src/search.rs `walk_directory`: candidate-name computation

The directory walk itself is I/O; the claims are about how each entry's
candidate name is derived from its file name (src/search.rs lines 33-36):
`file_name.split('.')`, drop the last chunk, re-join with `'.'`. -/

/-- Rust's `str::split('.')`: the (always non-empty) list of chunks between
occurrences of `'.'`; `""` splits to `[""]`, a leading/trailing `'.'` yields
an empty chunk. -/
def splitDots : List Char → List (List Char)
  | [] => [[]]
  | c :: rest =>
    if c = '.' then [] :: splitDots rest
    else
      match splitDots rest with
      | [] => [[c]]
      | chunk :: chunks => (c :: chunk) :: chunks

/-- src/search.rs line 36: `chunks[..chunks.len() - 1].join(".")` — the
candidate name walk_directory stores for a file called `name`. -/
def rawFileName (name : List Char) : List Char :=
  List.intercalate ['.'] (splitDots name).dropLast

/-! ### src/gui.rs `display_results_ui`: the interactive result browser

The loop is embedded as a state machine over an explicit input trace.  Each
loop iteration consumes one `IterIn`: the result of `terminal.draw` (line 43),
of the first `flush_input_events` (line 115), of `event::read` (line 119) and
of the second `flush_input_events` (line 146); `false`/`none` stands for an
`Err` that `?` propagates.  The two `thread::sleep` calls have no observable
effect and are not modelled.  The emitted `TermAct` list records the
terminal-mode operations the function performs, in order. -/

/-- The crossterm key codes the loop of src/gui.rs lines 119-142 dispatches on. -/
inductive Key
  | char (c : Char)
  | esc
  | down
  | up
  | enter
  | otherKey
deriving DecidableEq

/-- An event returned by `event::read`: a key event, or any other event kind
(mouse, resize, ...), which the `if let Event::Key(..)` skips. -/
inductive CtEvent
  | key (k : Key)
  | nonKey
deriving DecidableEq

/-- One loop iteration's fallible-operation results (see the section header). -/
structure IterIn where
  draw : Bool
  flushA : Bool
  read : Option CtEvent
  flushB : Bool
deriving DecidableEq

/-- Terminal-mode operations of src/gui.rs: lines 30-32 (acquisition) and
lines 151-157 (restoration). -/
inductive TermAct
  | enableRaw
  | enterAlt
  | enableMouse
  | disableRaw
  | leaveAlt
  | disableMouse
  | showCursor
deriving DecidableEq

/-- How one session ends (or, when the input trace runs out, the fact that it
is still running with the current `selected_index`).  `.opened` records the
`full_path` passed to `open_in_new_terminal` on Enter; `.quit` is the break on
`q`/Esc; `.ioErr` is an `Err` propagated by `?`; `.panicked` marks an
out-of-bounds `potential_hits[selected_index]` (never reached, see C6). -/
inductive Outcome
  | running (sel : Nat)
  | quit
  | opened (path : List Char)
  | ioErr
  | panicked
deriving DecidableEq

/-- The restoration sequence of src/gui.rs lines 151-157: `disable_raw_mode`,
`LeaveAlternateScreen`, `DisableMouseCapture`, `show_cursor`. -/
def restoreActs : List TermAct :=
  [.disableRaw, .leaveAlt, .disableMouse, .showCursor]

/-- The loop of src/gui.rs lines 42-148, from state `sel` (= `selected_index`)
with `hits` (= `potential_hits`, whose length is `num_results`).  Returns the
terminal actions performed from this point on together with the outcome; a
normal `break` falls through to the restoration code (lines 151-157). -/
def guiLoop (hits : List Hit) : Nat → List IterIn → List TermAct × Outcome
  | sel, [] => ([], .running sel)
  | sel, it :: rest =>
    if it.draw = false then ([], .ioErr)
    else if it.flushA = false then ([], .ioErr)
    else
      match it.read with
      | none => ([], .ioErr)
      | some .nonKey =>
        if it.flushB = false then ([], .ioErr) else guiLoop hits sel rest
      | some (.key k) =>
        match k with
        | .char c =>
          if c = 'q' then (restoreActs, .quit)
          else if c = 'j' then
            let sel' := if sel + 1 < hits.length then sel + 1 else sel
            if it.flushB = false then ([], .ioErr) else guiLoop hits sel' rest
          else if c = 'k' then
            let sel' := if 0 < sel then sel - 1 else sel
            if it.flushB = false then ([], .ioErr) else guiLoop hits sel' rest
          else
            if it.flushB = false then ([], .ioErr) else guiLoop hits sel rest
        | .esc => (restoreActs, .quit)
        | .down =>
          let sel' := if sel + 1 < hits.length then sel + 1 else sel
          if it.flushB = false then ([], .ioErr) else guiLoop hits sel' rest
        | .up =>
          let sel' := if 0 < sel then sel - 1 else sel
          if it.flushB = false then ([], .ioErr) else guiLoop hits sel' rest
        | .enter =>
          if 0 < hits.length then
            match hits[sel]? with
            | some h => (restoreActs, .opened h.2.2)
            | none => ([], .panicked)
          else
            if it.flushB = false then ([], .ioErr) else guiLoop hits sel rest
        | .otherKey =>
          if it.flushB = false then ([], .ioErr) else guiLoop hits sel rest

/-- src/gui.rs lines 26-160: `display_results_ui(potential_hits, ..)`.
Raw mode, the alternate screen and mouse capture are acquired (lines 30-32),
the pre-loop `flush_input_events` runs (line 40, `initFlush = false` models
its `Err`), then the loop runs from `selected_index = 0` (line 36). -/
def display_results_ui (hits : List Hit) (initFlush : Bool) (iters : List IterIn) :
    List TermAct × Outcome :=
  let setup : List TermAct := [.enableRaw, .enterAlt, .enableMouse]
  if initFlush = false then (setup, .ioErr)
  else
    let r := guiLoop hits 0 iters
    (setup ++ r.1, r.2)

/-! ### src/editor.rs `experimental_open_files`: numeric-selection fallback -/

/-- Rust's `str::trim`: drop whitespace from both ends. -/
def trimChars (l : List Char) : List Char :=
  ((l.dropWhile Char.isWhitespace).reverse.dropWhile Char.isWhitespace).reverse

/-- Decimal digits to a number (the value of `parse::<usize>` on a digit
string; usize overflow is not modelled, the claims only involve tiny values). -/
def digitsToNat (l : List Char) : Nat :=
  l.foldl (fun acc c => 10 * acc + (c.toNat - '0'.toNat)) 0

/-- Rust's `str::parse::<usize>()` on the trimmed input: an optional leading
`'+'` followed by at least one ASCII digit; anything else is `Err`. -/
def parseUsize (l : List Char) : Option Nat :=
  let body := match l with
    | '+' :: rest => rest
    | _ => l
  if body ≠ [] ∧ body.all Char.isDigit then some (digitsToNat body) else none

/-- src/editor.rs lines 16-39: `experimental_open_files(.., file_number,
potential_hits)` applied to one line of user input.  `none` models a panic
(the out-of-bounds `potential_hits[index_number - 1]`); `some none` is a
normal `Ok(())` return with no file opened (parse failure, or the
"Invalid file number." branch); `some (some path)` opened `path`. -/
def experimental_open_files (file_number : Nat) (hits : List Hit)
    (input : List Char) : Option (Option (List Char)) :=
  match parseUsize (trimChars input) with
  | none => some none
  | some index_number =>
    if 0 < index_number ∧ index_number ≤ file_number then
      match hits[index_number - 1]? with
      | some h => some (some h.2.2)
      | none => none
    else
      some none

/-- src/main.rs lines 226-251: the caller's `file_number` starts at 1 and is
incremented once per printed hit, so `experimental_open_files` receives
`potential_hits.len() + 1`. -/
def mainEditorCall (hits : List Hit) (input : List Char) : Option (Option (List Char)) :=
  experimental_open_files (hits.length + 1) hits input

/-! ## Theorems -/

/-- The fuel argument of `dlF` is irrelevant as long as it is at least `i + j`:
the embedding is a well-defined function of the table indices alone. -/
theorem dlF_fuel_irrel (q f : List Char) :
    ∀ fuel fuel' i j, i + j ≤ fuel → i + j ≤ fuel' → dlF q f fuel i j = dlF q f fuel' i j := by
  intro fuel
  induction fuel with
  | zero =>
    intro fuel' i j h _
    match i, j with
    | 0, 0 => cases fuel' <;> rfl
    | 0, j + 1 => omega
    | i + 1, j => omega
  | succ fuel ih =>
    intro fuel' i j h h'
    match i, j with
    | 0, 0 => cases fuel' <;> rfl
    | 0, j + 1 => cases fuel' <;> rfl
    | i + 1, 0 => cases fuel' <;> rfl
    | i + 1, j + 1 =>
      match fuel', h' with
      | fuel' + 1, _ =>
        simp only [dlF]
        rw [ih fuel' i j (by omega) (by omega),
          ih fuel' i (j + 1) (by omega) (by omega),
          ih fuel' (i + 1) j (by omega) (by omega),
          ih fuel' (i - 1) (j - 1) (by omega) (by omega)]

/-- Transposition symmetry of the DP table: swapping the two strings
transposes the table.  Every ingredient of the recurrence is symmetric under
the swap — the match test up to `Eq.comm`, the transposed-pair test up to
reordering its conjuncts, and the three-way `min` up to reassociation. -/
theorem dlF_symm (q f : List Char) :
    ∀ fuel i j, dlF q f fuel i j = dlF f q fuel j i := by
  intro fuel
  induction fuel with
  | zero =>
    intro i j
    match i, j with
    | 0, 0 => rfl
    | 0, j + 1 => rfl
    | i + 1, 0 => rfl
    | i + 1, j + 1 => rfl
  | succ fuel ih =>
    intro i j
    match i, j with
    | 0, 0 => rfl
    | 0, j + 1 => rfl
    | i + 1, 0 => rfl
    | i + 1, j + 1 =>
      have e1 : (f[j]? = q[i]?) ↔ (q[i]? = f[j]?) := eq_comm
      have e2 : (0 < j ∧ 0 < i ∧ f[j]? = q[i - 1]? ∧ f[j - 1]? = q[i]?) ↔
          (0 < i ∧ 0 < j ∧ q[i]? = f[j - 1]? ∧ q[i - 1]? = f[j]?) :=
        ⟨fun ⟨a, b, c, d⟩ => ⟨b, a, d.symm, c.symm⟩, fun ⟨a, b, c, d⟩ => ⟨b, a, d.symm, c.symm⟩⟩
      simp only [dlF]
      rw [ih i j, ih i (j + 1), ih (i + 1) j, ih (i - 1) (j - 1)]
      simp only [e1, e2]
      split_ifs <;> omega

/-- Both regression fixtures from the repository's own test
(src/search.rs lines 127-136) hold of the embedding. -/
theorem dl_matches_repo_tests :
    damerau_levenshtein_distance ['i', 'r', 'k', 's'] ['r', 'i', 's', 'k'] = 2 ∧
    damerau_levenshtein_distance ['g', 'e', 'e', 'k', 's']
      ['f', 'o', 'r', 'g', 'e', 'e', 'k', 's'] = 3 := by
  constructor
  · decide
  · set_option maxHeartbeats 2000000 in decide

/-- C9: For every pair of strings a and b, the distance function is symmetric:
damerau_levenshtein_distance(a, b) equals damerau_levenshtein_distance(b, a). -/
theorem c9_distance_symmetric (a b : List Char) :
    damerau_levenshtein_distance a b = damerau_levenshtein_distance b a := by
  unfold damerau_levenshtein_distance
  rw [dlF_symm, Nat.add_comm]

/-- C2: The code sizes the DP table by the BYTE lengths of the two strings
while indexing characters, so on the one-character query "é" (two bytes)
against the one-character candidate "a" it returns 2, where the recurrence
of the claim — lengths counted in characters — gives the true
Damerau–Levenshtein distance 1. -/
theorem c2_distance_mixes_byte_and_char_lengths :
    damerau_levenshtein_distance ['é'] ['a'] = 2 ∧
    dlSpecChars ['é'] ['a'] = 1 ∧
    utf8Len ['é'] = 2 ∧ List.length ['é'] = 1 := by
  exact ⟨by decide, by decide, by decide, by decide⟩

/-- Ceiling of a natural division, computed over ℚ, equals the rounded-up
integer division `(x + d - 1) / d`. -/
theorem natCeil_div (x d : Nat) (hd : 0 < d) :
    ⌈(x : ℚ) / (d : ℚ)⌉₊ = (x + d - 1) / d := by
  have hdq : (0 : ℚ) < (d : ℚ) := by exact_mod_cast hd
  rcases Nat.eq_zero_or_pos x with hx | hx
  · subst hx
    rw [Nat.cast_zero, zero_div, Nat.ceil_zero]
    have e : 0 + d - 1 = d - 1 := by omega
    rw [e, Nat.div_eq_of_lt (by omega)]
  · set k := (x + d - 1) / d with hk
    have hk1 : 1 ≤ k := (Nat.one_le_div_iff hd).2 (by omega)
    have h1 : k * d ≤ x + d - 1 := Nat.div_mul_le_self _ _
    have h2 : x + d - 1 < k * d + d := Nat.lt_div_mul_add hd
    have h3 : (k - 1) * d = k * d - d := by rw [Nat.sub_mul, Nat.one_mul]
    have h4 : (k - 1) * d < x := by omega
    have h5 : x ≤ k * d := by omega
    rw [Nat.ceil_eq_iff (by omega)]
    constructor
    · rw [lt_div_iff₀ hdq, ← Nat.cast_mul]
      exact_mod_cast h4
    · rw [div_le_iff₀ hdq, ← Nat.cast_mul]
      exact_mod_cast h5

/-- The source's rounded-up integer divisions are exactly the spec's piecewise
ceiling formula, evaluated at whatever length is supplied. -/
theorem threshold_eq_mathCeil (len : Nat) : threshold len = mathCeilThreshold len := by
  unfold threshold mathCeilThreshold
  split_ifs
  · have e : (len : ℚ) * (25 / 100) = (len : ℚ) / ((4 : Nat) : ℚ) := by push_cast; ring
    rw [e, natCeil_div len 4 (by omega)]
    omega
  · have e : (len : ℚ) * (35 / 100) = ((7 * len : Nat) : ℚ) / ((20 : Nat) : ℚ) := by
      push_cast; ring
    rw [e, natCeil_div (7 * len) 20 (by omega)]
    omega
  · have e : (len : ℚ) * (45 / 100) = ((9 * len : Nat) : ℚ) / ((20 : Nat) : ℚ) := by
      push_cast; ring
    rw [e, natCeil_div (9 * len) 20 (by omega)]
    omega

/-- C3 counterexample: the query "héllo" has 5 characters but 6 UTF-8 bytes;
the code computes the threshold from the byte count (band 5-10, ceil(6·0.35) =
3), while the claim's character-count formula gives ceil(5·0.35) = 2. -/
theorem c3_threshold_char_count_fails :
    thresholdOfQuery ['h', 'é', 'l', 'l', 'o'] = 3 ∧
    thresholdSpecChars ['h', 'é', 'l', 'l', 'o'] = 2 ∧
    thresholdOfQuery ['h', 'é', 'l', 'l', 'o'] ≠ thresholdSpecChars ['h', 'é', 'l', 'l', 'o'] := by
  have h2 : thresholdSpecChars ['h', 'é', 'l', 'l', 'o'] = 2 := by
    show mathCeilThreshold 5 = 2
    rw [← threshold_eq_mathCeil]
    decide
  have h3 : thresholdOfQuery ['h', 'é', 'l', 'l', 'o'] = 3 := by decide
  exact ⟨h3, h2, by rw [h3, h2]; decide⟩

/-- C3 (amended): the fuzzy-mode threshold is computed from the query's UTF-8
BYTE count len as ceil(len·0.25) for len 0-4, ceil(len·0.35) for 5-10 and
ceil(len·0.45) for 11+ (it agrees with the claim's character count exactly on
ASCII queries); byte length 4 yields 1, length 7 yields 3, length 12 yields 6. -/
theorem c3_threshold_from_byte_count :
    (∀ query : List Char, thresholdOfQuery query = mathCeilThreshold (utf8Len query)) ∧
    threshold 4 = 1 ∧ threshold 7 = 3 ∧ threshold 12 = 6 := by
  exact ⟨fun query => threshold_eq_mathCeil (utf8Len query), by decide, by decide, by decide⟩

/-- Membership in an insertion is membership in the old list or being the new
element. -/
theorem mem_insertHit (z x : Hit) : ∀ (l : List Hit), z ∈ insertHit x l ↔ z = x ∨ z ∈ l := by
  intro l
  induction l with
  | nil => simp [insertHit]
  | cons y ys ih =>
    simp only [insertHit]
    split_ifs with h
    · simp only [List.mem_cons, ih]
      tauto
    · simp [List.mem_cons]

/-- Insertion preserves sortedness by score. -/
theorem pairwise_insertHit (x : Hit) : ∀ (l : List Hit),
    List.Pairwise (fun a b : Hit => a.1 ≤ b.1) l →
    List.Pairwise (fun a b : Hit => a.1 ≤ b.1) (insertHit x l) := by
  intro l
  induction l with
  | nil => intro _; simp [insertHit]
  | cons y ys ih =>
    intro hp
    rw [List.pairwise_cons] at hp
    obtain ⟨hy, hys⟩ := hp
    simp only [insertHit]
    split_ifs with h
    · rw [List.pairwise_cons]
      refine ⟨?_, ih hys⟩
      intro z hz
      rcases (mem_insertHit z x ys).1 hz with rfl | hzys
      · omega
      · exact hy z hzys
    · rw [List.pairwise_cons]
      refine ⟨?_, List.pairwise_cons.2 ⟨hy, hys⟩⟩
      intro z hz
      rcases List.mem_cons.1 hz with rfl | hzys
      · omega
      · exact le_trans (show x.1 ≤ y.1 by omega) (hy z hzys)

/-- The stable sort is sorted ascending by score. -/
theorem sortHits_pairwise : ∀ (l : List Hit),
    List.Pairwise (fun a b : Hit => a.1 ≤ b.1) (sortHits l) := by
  intro l
  induction l with
  | nil => simp [sortHits]
  | cons x xs ih => exact pairwise_insertHit x (sortHits xs) ih

/-- Inserting `x` commutes with filtering by an exact score `s`: `insertHit`
places `x` after strictly smaller scores only, so among score-`s` elements it
lands first — the stability kernel. -/
theorem filter_insertHit (s : Nat) (x : Hit) : ∀ (l : List Hit),
    (insertHit x l).filter (fun h => h.1 == s) =
      if x.1 = s then x :: l.filter (fun h => h.1 == s)
      else l.filter (fun h => h.1 == s) := by
  intro l
  induction l with
  | nil => by_cases hxs : x.1 = s <;> simp [insertHit, hxs]
  | cons y ys ih =>
    by_cases hlt : y.1 < x.1
    · simp only [insertHit, if_pos hlt, List.filter_cons, ih]
      by_cases hxs : x.1 = s
      · have hy : (y.1 == s) = false := by simp only [beq_eq_false_iff_ne, ne_eq]; omega
        simp [hxs, hy]
      · simp [hxs]
    · simp only [insertHit, if_neg hlt, List.filter_cons]
      by_cases hxs : x.1 = s
      · simp [hxs]
      · simp [hxs]

/-- Stability of the sort: for every score `s`, the score-`s` elements appear
in the sorted list exactly as they appear in the input. -/
theorem sortHits_filter (s : Nat) : ∀ (l : List Hit),
    (sortHits l).filter (fun h => h.1 == s) = l.filter (fun h => h.1 == s) := by
  intro l
  induction l with
  | nil => rfl
  | cons x xs ih =>
    simp only [sortHits, filter_insertHit, ih, List.filter_cons]
    by_cases hxs : x.1 = s
    · simp [hxs]
    · simp [hxs]

/-- Everything the early-exit walk keeps scores at most the threshold. -/
theorem selectHits_le (thr : Nat) : ∀ (l : List Hit) (h : Hit),
    h ∈ selectHits thr l → h.1 ≤ thr := by
  intro l
  induction l with
  | nil => intro h hh; simp [selectHits] at hh
  | cons y ys ih =>
    intro h hh
    simp only [selectHits] at hh
    split_ifs at hh with hy
    · rcases List.mem_cons.1 hh with rfl | hmem
      · exact hy
      · exact ih h hmem
    · simp at hh

/-- The early-exit walk keeps an initial segment of the list it walks. -/
theorem selectHits_eq_take (thr : Nat) : ∀ (l : List Hit),
    selectHits thr l = l.take (selectHits thr l).length := by
  intro l
  induction l with
  | nil => rfl
  | cons y ys ih =>
    simp only [selectHits]
    split_ifs with hy
    · simp only [List.length_cons, List.take_succ_cons]
      rw [← ih]
    · rfl

/-- The element (if any) at which the walk stopped exceeds the threshold. -/
theorem selectHits_cut (thr : Nat) : ∀ (l : List Hit) (x : Hit),
    l[(selectHits thr l).length]? = some x → thr < x.1 := by
  intro l
  induction l with
  | nil => intro x hx; simp at hx
  | cons y ys ih =>
    intro x hx
    simp only [selectHits] at hx
    split_ifs at hx with hy
    · simp only [List.length_cons, List.getElem?_cons_succ] at hx
      exact ih x hx
    · simp only [List.length_nil, List.getElem?_cons_zero, Option.some.injEq] at hx
      subst hx
      omega

/-- On a sorted list, the early exit loses no element whose score is within
the threshold: cutting at the first failure only drops scores above it. -/
theorem selectHits_filter (thr s : Nat) (hs : s ≤ thr) : ∀ (l : List Hit),
    List.Pairwise (fun a b : Hit => a.1 ≤ b.1) l →
    (selectHits thr l).filter (fun h => h.1 == s) = l.filter (fun h => h.1 == s) := by
  intro l
  induction l with
  | nil => intro _; rfl
  | cons y ys ih =>
    intro hp
    rw [List.pairwise_cons] at hp
    obtain ⟨hy, hys⟩ := hp
    simp only [selectHits]
    split_ifs with hyt
    · rw [List.filter_cons, List.filter_cons, ih hys]
    · symm
      rw [List.filter_nil, List.filter_eq_nil_iff]
      intro a ha
      rcases List.mem_cons.1 ha with rfl | hmem
      · simp only [beq_iff_eq]
        omega
      · have := hy a hmem
        simp only [beq_iff_eq]
        omega

/-- With the Damerau–Levenshtein scorer no candidate fails, and the scoring
loop returns the in-order scored list. -/
theorem scoreAllFiles_dl (query : List Char) : ∀ (files : List (List Char × List Char)),
    scoreAllFiles query .DamerauLevenshtein files = .ok (scoredList query files) := by
  intro files
  induction files with
  | nil => rfl
  | cons nf rest ih =>
    obtain ⟨name, path⟩ := nf
    simp [scoreAllFiles, score_fuzzy_search, ih, scoredList]

/-- When some candidate's scoring fails, the loop of src/main.rs lines 202-211
returns an error rather than a list. -/
theorem scoreAllFiles_error (query : List Char) (alg : FuzzySearchAlgorithm) :
    ∀ (files : List (List Char × List Char)),
    (∃ nf ∈ files, ∃ e, score_fuzzy_search query nf.1 alg = .error e) →
    ∃ e, scoreAllFiles query alg files = .error e := by
  intro files
  induction files with
  | nil =>
    rintro ⟨nf, hmem, _⟩
    simp at hmem
  | cons nf0 rest ih =>
    rintro ⟨nf, hmem, e, he⟩
    obtain ⟨name, path⟩ := nf0
    simp only [scoreAllFiles]
    rcases List.mem_cons.1 hmem with rfl | hmem'
    · have he' : score_fuzzy_search query name alg = .error e := he
      exact ⟨e, by rw [he']⟩
    · obtain ⟨e', herr⟩ := ih ⟨nf, hmem', e, he⟩
      cases hsc : score_fuzzy_search query name alg with
      | ok score => exact ⟨e', by rw [herr]⟩
      | error efirst => exact ⟨efirst, rfl⟩

/-- C4: the fuzzy-mode result list is the early-exit initial segment of the
stably sorted scored list — it is sorted ascending by score, every kept score
is at most the query's threshold, the output is a take-initial-segment of the
sorted sequence, and the element at the cut position (the first sorted
candidate past the output, if any) exceeds the threshold, so no later sorted
candidate appears in the output. -/
theorem c4_early_exit_selection (query : List Char) (files : List (List Char × List Char)) :
    fuzzyMode query files = .ok (fuzzyHits query files) ∧
    List.Pairwise (fun a b : Hit => a.1 ≤ b.1) (fuzzyHits query files) ∧
    (∀ h ∈ fuzzyHits query files, h.1 ≤ thresholdOfQuery query) ∧
    fuzzyHits query files =
      (sortHits (scoredList query files)).take (fuzzyHits query files).length ∧
    (∀ x, (sortHits (scoredList query files))[(fuzzyHits query files).length]? = some x →
      thresholdOfQuery query < x.1) := by
  refine ⟨?_, ?_, ?_, selectHits_eq_take _ _, fun x hx => selectHits_cut _ _ x hx⟩
  · unfold fuzzyMode
    rw [scoreAllFiles_dl]
    rfl
  · have hsub : List.Sublist (fuzzyHits query files) (sortHits (scoredList query files)) := by
      show List.Sublist
        (selectHits (thresholdOfQuery query) (sortHits (scoredList query files))) _
      rw [selectHits_eq_take]
      exact List.take_sublist _ _
    exact List.Pairwise.sublist hsub (sortHits_pairwise _)
  · intro h hh
    exact selectHits_le _ _ h hh

/-- C5: every variant other than DamerauLevenshtein makes `score_fuzzy_search`
fail with the not-implemented error; the DamerauLevenshtein variant returns the
computed distance; and one failing candidate makes the whole ranking loop
return the error to the caller instead of a list. -/
theorem c5_unsupported_algorithm_aborts (alg : FuzzySearchAlgorithm)
    (query file_name : List Char) (files : List (List Char × List Char)) :
    (alg ≠ .DamerauLevenshtein →
      score_fuzzy_search query file_name alg =
        .error (fuzzyAlgorithmDebugName alg ++ " Algorithm not implemented")) ∧
    score_fuzzy_search query file_name .DamerauLevenshtein =
      .ok (damerau_levenshtein_distance query file_name) ∧
    ((∃ nf ∈ files, ∃ e, score_fuzzy_search query nf.1 alg = .error e) →
      ∃ e, scoreAllFiles query alg files = .error e) := by
  refine ⟨?_, rfl, scoreAllFiles_error query alg files⟩
  intro hne
  cases alg with
  | DamerauLevenshtein => exact absurd rfl hne
  | LEVENSHTEIN => rfl
  | BITAP => rfl
  | JaroWinkler => rfl

/-- C8: stability through the whole fuzzy pipeline — for any score value
within the threshold, the output lists its candidates of that score exactly in
input order (equal scores are never reordered). -/
theorem c8_equal_scores_keep_input_order (query : List Char)
    (files : List (List Char × List Char)) (s : Nat)
    (hs : s ≤ thresholdOfQuery query) :
    (fuzzyHits query files).filter (fun h => h.1 == s) =
      (scoredList query files).filter (fun h => h.1 == s) := by
  have h1 := selectHits_filter (thresholdOfQuery query) s hs
    (sortHits (scoredList query files)) (sortHits_pairwise _)
  show (selectHits (thresholdOfQuery query) (sortHits (scoredList query files))).filter _ = _
  rw [h1, sortHits_filter]

/-- Witness for C8 at a concrete tie: query "ab" against candidates "abx" and
"aby", both at distance 1 = threshold; the output keeps them in input order. -/
theorem c8_equal_scores_witness :
    (fuzzyHits ['a', 'b'] [(['a', 'b', 'x'], ['p', '1']), (['a', 'b', 'y'], ['p', '2'])]).filter
        (fun h => h.1 == 1) =
      (scoredList ['a', 'b'] [(['a', 'b', 'x'], ['p', '1']), (['a', 'b', 'y'], ['p', '2'])]).filter
        (fun h => h.1 == 1) :=
  c8_equal_scores_keep_input_order ['a', 'b']
    [(['a', 'b', 'x'], ['p', '1']), (['a', 'b', 'y'], ['p', '2'])] 1 (by decide)

/-- Whenever the browser loop ends in a propagated I/O error, it has emitted
no terminal action at all from that point — in particular none of the
restoration actions (the `?` returns skip the code after the loop). -/
theorem guiLoop_ioErr_no_acts (hits : List Hit) :
    ∀ (iters : List IterIn) (sel : Nat),
    (guiLoop hits sel iters).2 = .ioErr → (guiLoop hits sel iters).1 = [] := by
  intro iters
  induction iters with
  | nil => intro sel h; exact Outcome.noConfusion h
  | cons it rest ih =>
    intro sel h
    obtain ⟨d, fa, rd, fb⟩ := it
    cases d with
    | false => rfl
    | true =>
      cases fa with
      | false => rfl
      | true =>
        match rd with
        | none => rfl
        | some .nonKey =>
          cases fb with
          | false => rfl
          | true => exact ih sel h
        | some (.key .esc) => exact Outcome.noConfusion h
        | some (.key .down) =>
          cases fb with
          | false => rfl
          | true => exact ih _ h
        | some (.key .up) =>
          cases fb with
          | false => rfl
          | true => exact ih _ h
        | some (.key .otherKey) =>
          cases fb with
          | false => rfl
          | true => exact ih sel h
        | some (.key (.char c)) =>
          by_cases hq : c = 'q'
          · subst hq; exact Outcome.noConfusion h
          · by_cases hj : c = 'j'
            · subst hj
              cases fb with
              | false => rfl
              | true => exact ih _ h
            · by_cases hk : c = 'k'
              · subst hk
                cases fb with
                | false => rfl
                | true => exact ih _ h
              · simp only [guiLoop, if_neg hq, if_neg hj, if_neg hk] at h ⊢
                cases fb with
                | false => rfl
                | true => exact ih sel h
        | some (.key .enter) =>
          by_cases hlen : 0 < hits.length
          · cases hsel : hits[sel]? with
            | none =>
              simp only [guiLoop, if_pos hlen, hsel] at h
              exact Outcome.noConfusion h
            | some hh =>
              simp only [guiLoop, if_pos hlen, hsel] at h
              exact Outcome.noConfusion h
          · simp only [guiLoop, if_neg hlen] at h ⊢
            cases fb with
            | false => rfl
            | true => exact ih sel h

/-- The selection stays a valid index: from any valid `selected_index`, every
run of the loop that is still going (input trace exhausted while `Active`)
has a valid `selected_index`. -/
theorem guiLoop_running_valid (hits : List Hit) :
    ∀ (iters : List IterIn) (sel : Nat), sel < hits.length →
    ∀ s', (guiLoop hits sel iters).2 = .running s' → s' < hits.length := by
  intro iters
  induction iters with
  | nil =>
    intro sel hsel s' h
    have h' : Outcome.running sel = .running s' := h
    cases h'
    exact hsel
  | cons it rest ih =>
    intro sel hsel s' h
    obtain ⟨d, fa, rd, fb⟩ := it
    cases d with
    | false => exact Outcome.noConfusion h
    | true =>
      cases fa with
      | false => exact Outcome.noConfusion h
      | true =>
        match rd with
        | none => exact Outcome.noConfusion h
        | some .nonKey =>
          cases fb with
          | false => exact Outcome.noConfusion h
          | true => exact ih sel hsel s' h
        | some (.key .esc) => exact Outcome.noConfusion h
        | some (.key .down) =>
          cases fb with
          | false => exact Outcome.noConfusion h
          | true =>
            exact ih (if sel + 1 < hits.length then sel + 1 else sel)
              (by split_ifs <;> omega) s' h
        | some (.key .up) =>
          cases fb with
          | false => exact Outcome.noConfusion h
          | true =>
            exact ih (if 0 < sel then sel - 1 else sel) (by split_ifs <;> omega) s' h
        | some (.key .otherKey) =>
          cases fb with
          | false => exact Outcome.noConfusion h
          | true => exact ih sel hsel s' h
        | some (.key (.char c)) =>
          by_cases hq : c = 'q'
          · subst hq; exact Outcome.noConfusion h
          · by_cases hj : c = 'j'
            · subst hj
              cases fb with
              | false => exact Outcome.noConfusion h
              | true =>
                exact ih (if sel + 1 < hits.length then sel + 1 else sel)
                  (by split_ifs <;> omega) s' h
            · by_cases hk : c = 'k'
              · subst hk
                cases fb with
                | false => exact Outcome.noConfusion h
                | true =>
                  exact ih (if 0 < sel then sel - 1 else sel) (by split_ifs <;> omega) s' h
              · simp only [guiLoop, if_neg hq, if_neg hj, if_neg hk] at h
                cases fb with
                | false => exact Outcome.noConfusion h
                | true => exact ih sel hsel s' h
        | some (.key .enter) =>
          by_cases hlen : 0 < hits.length
          · cases hsel : hits[sel]? with
            | none =>
              simp only [guiLoop, if_pos hlen, hsel] at h
              exact Outcome.noConfusion h
            | some hh =>
              simp only [guiLoop, if_pos hlen, hsel] at h
              exact Outcome.noConfusion h
          · simp only [guiLoop, if_neg hlen] at h
            cases fb with
            | false => exact Outcome.noConfusion h
            | true => exact ih sel hsel s' h

/-- C1: the session teardown contract fails on error paths.  Concretely, when
the first `terminal.draw` call fails, the function has performed the three
acquisition actions and returns the error having performed none of the four
restoration actions; and in general, every error-ending session performs no
restoration action (`?` returns straight out of the loop, before the
restoration code at src/gui.rs lines 151-157). -/
theorem c1_no_restoration_on_error_path :
    (display_results_ui [(0, ['a'], ['p'])] true [⟨false, true, some .nonKey, true⟩] =
      ([.enableRaw, .enterAlt, .enableMouse], .ioErr)) ∧
    (∀ (hits : List Hit) (initFlush : Bool) (iters : List IterIn),
      (display_results_ui hits initFlush iters).2 = .ioErr →
        TermAct.disableRaw ∉ (display_results_ui hits initFlush iters).1 ∧
        TermAct.leaveAlt ∉ (display_results_ui hits initFlush iters).1 ∧
        TermAct.disableMouse ∉ (display_results_ui hits initFlush iters).1 ∧
        TermAct.showCursor ∉ (display_results_ui hits initFlush iters).1) := by
  constructor
  · rfl
  · intro hits initFlush iters h
    cases initFlush with
    | false =>
      have e : (display_results_ui hits false iters).1 =
          [TermAct.enableRaw, .enterAlt, .enableMouse] := rfl
      refine ⟨?_, ?_, ?_, ?_⟩ <;> rw [e] <;> decide
    | true =>
      have hacts : (guiLoop hits 0 iters).1 = [] := guiLoop_ioErr_no_acts hits iters 0 h
      have hshow : (display_results_ui hits true iters).1 =
          [TermAct.enableRaw, .enterAlt, .enableMouse] ++ (guiLoop hits 0 iters).1 := rfl
      rw [hshow, hacts]
      refine ⟨?_, ?_, ?_, ?_⟩ <;> decide

/-- C6: the browser session starts with the cursor at index 0; the cursor is a
valid index whenever the session is still running on a non-empty result list;
down/up steps move by one and clamp at the ends (shown on a three-result
list); Enter on an empty result list is a no-op that leaves the session
running with no chosen path; and a `q` or Esc key always ends the session as
`.quit` (no chosen action), whatever the selection state and remaining
input. -/
theorem c6_browser_state_machine :
    (∀ (hits : List Hit), (display_results_ui hits true []).2 = .running 0) ∧
    (∀ (hits : List Hit) (iters : List IterIn) (s' : Nat), hits ≠ [] →
      (display_results_ui hits true iters).2 = .running s' → s' < hits.length) ∧
    (display_results_ui [(0, ['a'], ['x']), (1, ['b'], ['y']), (2, ['c'], ['z'])] true
        [⟨true, true, some (.key .down), true⟩]).2 = .running 1 ∧
    (display_results_ui [(0, ['a'], ['x']), (1, ['b'], ['y']), (2, ['c'], ['z'])] true
        [⟨true, true, some (.key .down), true⟩, ⟨true, true, some (.key .down), true⟩,
          ⟨true, true, some (.key .down), true⟩]).2 = .running 2 ∧
    (display_results_ui [(0, ['a'], ['x']), (1, ['b'], ['y']), (2, ['c'], ['z'])] true
        [⟨true, true, some (.key .up), true⟩]).2 = .running 0 ∧
    (display_results_ui [] true [⟨true, true, some (.key .enter), true⟩]).2 = .running 0 ∧
    (∀ (hits : List Hit) (sel : Nat) (rest : List IterIn),
      guiLoop hits sel (⟨true, true, some (.key (.char 'q')), true⟩ :: rest) =
        (restoreActs, .quit)) ∧
    (∀ (hits : List Hit) (sel : Nat) (rest : List IterIn),
      guiLoop hits sel (⟨true, true, some (.key .esc), true⟩ :: rest) =
        (restoreActs, .quit)) := by
  refine ⟨fun hits => rfl, ?_, by decide, by decide, by decide, by decide,
    fun hits sel rest => rfl, fun hits sel rest => rfl⟩
  intro hits iters s' hne h
  exact guiLoop_running_valid hits iters 0
    (by cases hits with | nil => exact absurd rfl hne | cons a t => simp) s' h

/-- C7: the off-by-one in the caller's `file_number` (it ends at
`potential_hits.len() + 1`) lets the in-range check of
`experimental_open_files` accept the selection N+1 when N results are shown,
and `potential_hits[index_number - 1]` then panics (modelled as `none`).
Non-numeric input returns `Ok(())` without opening anything, and so does a
selection the range check rejects; a valid selection opens the file. -/
theorem c7_selection_out_of_bounds_panic :
    mainEditorCall [(1, ['b'], ['p', 'b'])] ['2'] = none ∧
    experimental_open_files 2 [(1, ['b'], ['p', 'b'])] ['2'] = none ∧
    mainEditorCall [(1, ['b'], ['p', 'b'])] ['1'] = some (some ['p', 'b']) ∧
    mainEditorCall [(1, ['b'], ['p', 'b'])] ['x', 'y'] = some none ∧
    mainEditorCall [(1, ['b'], ['p', 'b'])] [' ', '9', ' '] = some none := by
  exact ⟨by decide, by decide, by decide, by decide, by decide⟩

/-- A file name containing no `'.'` splits into the single chunk that is the
whole name. -/
theorem splitDots_no_dot : ∀ (name : List Char), '.' ∉ name → splitDots name = [name] := by
  intro name
  induction name with
  | nil => intro _; rfl
  | cons c rest ih =>
    intro hnd
    rw [List.mem_cons] at hnd
    push_neg at hnd
    obtain ⟨h1, h2⟩ := hnd
    simp only [splitDots, if_neg (Ne.symm h1), ih h2]

/-- C10: a file name with no `'.'` separator (e.g. "Makefile"), and a dotfile
whose name is a single leading `'.'` followed by a dot-free remainder (e.g.
".gitignore"), both produce the empty string as the stored candidate name:
everything before the last `'.'` is empty. -/
theorem c10_no_extension_gives_empty_name :
    (∀ name : List Char, '.' ∉ name → rawFileName name = []) ∧
    (∀ rest : List Char, '.' ∉ rest → rawFileName ('.' :: rest) = []) ∧
    rawFileName ['M', 'a', 'k', 'e', 'f', 'i', 'l', 'e'] = [] ∧
    rawFileName ['.', 'g', 'i', 't', 'i', 'g', 'n', 'o', 'r', 'e'] = [] := by
  refine ⟨?_, ?_, by decide, by decide⟩
  · intro name h
    unfold rawFileName
    rw [splitDots_no_dot name h]
    rfl
  · intro rest h
    unfold rawFileName
    have hsplit : splitDots ('.' :: rest) = [] :: splitDots rest := by
      simp [splitDots]
    rw [hsplit, splitDots_no_dot rest h]
    rfl

end FuzzyLs
